import Mathlib

/-!
Shallow embedding of the core of the Authenticity zkApp repository
(src/commitmentHelpers.ts, src/helpers/bytesCompressionHelpers.ts,
src/helpers/stateHelpers.ts, src/AuthenticityZkApp.ts, src/BatchReducer.ts),
together with proofs deciding the frozen claims about its specification.

Machine integers are modelled as Nat with explicit reduction mod 2^32
(JavaScript 32-bit coercions and the o1js UInt32 wrapping operations) or
mod the Pallas base field prime (o1js Field arithmetic).  JavaScript
ToInt32/ToUint32 pick different representatives of the same residue class
mod 2^32; every such intermediate below is consumed by an operation that
reduces mod 2^32 (a trailing zero-fill right shift in the source), so the
canonical nonnegative representative is used throughout.  Fallible code
(o1js assertions, range-checked conversions) returns Option.
-/

/-- One SHA-256 compression state: 8 lanes of 32-bit words
(source: state arrays destructured as a..h in commitmentHelpers.ts). -/
structure SHA256State where
  a : Nat
  b : Nat
  c : Nat
  d : Nat
  e : Nat
  f : Nat
  g : Nat
  h : Nat
deriving DecidableEq

/-- Output shape of processFinalBlockUntilLastRound: the chaining state that
entered the final block, plus the message-schedule word and round constant of
the omitted round 63 (commitmentHelpers.ts lines 226-233). -/
structure FinalRoundData where
  initialState : SHA256State
  messageWord : Nat
  roundConstant : Nat
deriving DecidableEq

/-- Result of hashUntilFinalRound: the 8-lane state after 63 rounds of the
final block plus the final-round replay data (commitmentHelpers.ts 97-101).
The source also returns an expectedHash computed by an external crypto
library; that output is not consumed by the split verification path and is
not modelled. -/
structure HashSplitOutput where
  penultimateState : SHA256State
  finalRoundInputs : FinalRoundData
deriving DecidableEq

/-- SHA-256 round constants K (commitmentHelpers.ts lines 34-46); the source
writes them as hex literals, transcribed here in decimal. -/
def K : List Nat :=
  [1116352408, 1899447441, 3049323471, 3921009573, 961987163, 1508970993,
   2453635748, 2870763221, 3624381080, 310598401, 607225278, 1426881987,
   1925078388, 2162078206, 2614888103, 3248222580, 3835390401, 4022224774,
   264347078, 604807628, 770255983, 1249150122, 1555081692, 1996064986,
   2554220882, 2821834349, 2952996808, 3210313671, 3336571891, 3584528711,
   113926993, 338241895, 666307205, 773529912, 1294757372, 1396182291,
   1695183700, 1986661051, 2177026350, 2456956037, 2730485921, 2820302411,
   3259730800, 3345764771, 3516065817, 3600352804, 4094571909, 275423344,
   430227734, 506948616, 659060556, 883997877, 958139571, 1322822218,
   1537002063, 1747873779, 1955562222, 2024104815, 2227730452, 2361852424,
   2428436474, 2756734187, 3204031479, 3329325298]

/-- SHA-256 initial hash values (commitmentHelpers.ts lines 49-52). -/
def INITIAL_HASH : SHA256State :=
  { a := 1779033703, b := 3144134277, c := 1013904242, d := 2773480762,
    e := 1359893119, f := 2600822924, g := 528734635, h := 1541459225 }

/-- JavaScript rightRotate (commitmentHelpers.ts 296-298):
((value >>> amount) | (value << (32 - amount))) >>> 0.  The left shift is a
32-bit coercion, modelled as multiplication by a power of two reduced
mod 2^32; the final zero-fill shift makes the result the nonnegative
residue. -/
def rightRotate (value amount : Nat) : Nat :=
  (value >>> amount) ||| ((value <<< (32 - amount)) % 2 ^ 32)

/-- JavaScript 32-bit bitwise complement as used in the expression
(~e & g): the bit pattern of ToInt32(~e) is e XOR (2^32 - 1). -/
def jsNot32 (value : Nat) : Nat := value ^^^ (2 ^ 32 - 1)

/-- Big-endian 32-bit read from a byte buffer, block.readUInt32BE(offset). -/
def readUInt32BE (block : List Nat) (offset : Nat) : Nat :=
  block.getD offset 0 * 2 ^ 24 + block.getD (offset + 1) 0 * 2 ^ 16 +
    block.getD (offset + 2) 0 * 2 ^ 8 + block.getD (offset + 3) 0

/-- One step of the SHA-256 message-schedule extension loop
(commitmentHelpers.ts 138-146 and the identical copy at 194-202): with n
words already produced, compute word w[n] from w[n-16], w[n-15], w[n-7],
w[n-2]. -/
def nextScheduleWord (w : List Nat) : Nat :=
  let n := w.length
  let w15 := w.getD (n - 15) 0
  let w2 := w.getD (n - 2) 0
  let s0 := rightRotate w15 7 ^^^ rightRotate w15 18 ^^^ (w15 >>> 3)
  let s1 := rightRotate w2 17 ^^^ rightRotate w2 19 ^^^ (w2 >>> 10)
  (w.getD (n - 16) 0 + s0 + w.getD (n - 7) 0 + s1) % 2 ^ 32

/-- The 64-word SHA-256 message schedule of one 64-byte block: 16 words read
big-endian from the block, then 48 extension steps.  The source repeats this
loop verbatim in processSHA256Block and processFinalBlockUntilLastRound; it
is embedded once. -/
def messageSchedule (block : List Nat) : List Nat :=
  (List.range 48).foldl (fun w _ => w ++ [nextScheduleWord w])
    ((List.range 16).map (fun i => readUInt32BE block (4 * i)))

/-- The SHA-256 round body shared verbatim by the loops at
commitmentHelpers.ts 152-168 and 208-224: working variables a..h, round
constant ki = K[i], schedule word wi = w[i]; temp1 and the updated lanes are
reduced mod 2^32 by the zero-fill right shifts in the source. -/
def sha256Round (st : SHA256State) (ki wi : Nat) : SHA256State :=
  let S1 := rightRotate st.e 6 ^^^ rightRotate st.e 11 ^^^ rightRotate st.e 25
  let ch := (st.e &&& st.f) ^^^ (jsNot32 st.e &&& st.g)
  let temp1 := (st.h + S1 + ch + ki + wi) % 2 ^ 32
  let S0 := rightRotate st.a 2 ^^^ rightRotate st.a 13 ^^^ rightRotate st.a 22
  let maj := (st.a &&& st.b) ^^^ (st.a &&& st.c) ^^^ (st.b &&& st.c)
  let temp2 := (S0 + maj) % 2 ^ 32
  { a := (temp1 + temp2) % 2 ^ 32, b := st.a, c := st.b, d := st.c,
    e := (st.d + temp1) % 2 ^ 32, f := st.e, g := st.f, h := st.g }

/-- Runs the first n rounds of the compression loop over a schedule w. -/
def sha256Rounds (w : List Nat) (n : Nat) (st : SHA256State) : SHA256State :=
  (List.range n).foldl (fun s i => sha256Round s (K.getD i 0) (w.getD i 0)) st

/-- Lane-wise chaining addition, (state[i] + x) >>> 0
(commitmentHelpers.ts 171-180). -/
def addStates (st x : SHA256State) : SHA256State :=
  { a := (st.a + x.a) % 2 ^ 32, b := (st.b + x.b) % 2 ^ 32,
    c := (st.c + x.c) % 2 ^ 32, d := (st.d + x.d) % 2 ^ 32,
    e := (st.e + x.e) % 2 ^ 32, f := (st.f + x.f) % 2 ^ 32,
    g := (st.g + x.g) % 2 ^ 32, h := (st.h + x.h) % 2 ^ 32 }

/-- processSHA256Block (commitmentHelpers.ts 130-181): all 64 rounds on one
block, then the chaining addition onto the incoming state. -/
def processSHA256Block (state : SHA256State) (block : List Nat) : SHA256State :=
  addStates state (sha256Rounds (messageSchedule block) 64 state)

/-- processFinalBlockUntilLastRound (commitmentHelpers.ts 186-234): 63 rounds
on the final block; returns the penultimate state together with the chaining
state that entered the block, w[63] and K[63]. -/
def processFinalBlockUntilLastRound (state : SHA256State) (block : List Nat) :
    HashSplitOutput :=
  let w := messageSchedule block
  { penultimateState := sha256Rounds w 63 state,
    finalRoundInputs :=
      { initialState := state, messageWord := w.getD 63 0,
        roundConstant := K.getD 63 0 } }

/-- padSHA256Message (commitmentHelpers.ts 107-125): original bytes, a single
0x80 byte, zero padding, and the bit length as a 64-bit big-endian trailer,
rounded up to a 64-byte boundary.  Buffer.writeBigUInt64BE throws a range
error when the value does not fit in 64 bits, modelled by none. -/
def padSHA256Message (data : List Nat) : Option (List Nat) :=
  let messageLength := data.length
  let messageLengthBits := messageLength * 8
  let paddedLength := ((messageLength + 9 + 63) / 64) * 64
  if messageLengthBits < 2 ^ 64 then
    some (data ++ [0x80] ++ List.replicate (paddedLength - messageLength - 9) 0
      ++ (List.range 8).map (fun j => (messageLengthBits >>> (8 * (7 - j))) &&& 255))
  else none

/-- The block-splitting loop of hashUntilFinalRound (commitmentHelpers.ts
82-85): 64-byte chunks taken at offsets 0, 64, 128, ... while inside the
buffer. -/
def splitBlocks (padded : List Nat) : List (List Nat) :=
  (List.range ((padded.length + 63) / 64)).map
    (fun i => (padded.drop (64 * i)).take 64)

/-- hashUntilFinalRound (commitmentHelpers.ts 71-102): pad, run full
compression on every block but the last, then the final block up to round 62.
The expectedHash computed by the external crypto library is not modelled. -/
def hashUntilFinalRound (imageData : List Nat) : Option HashSplitOutput :=
  (padSHA256Message imageData).map (fun paddedData =>
    let blocks := splitBlocks paddedData
    let state := (blocks.take (blocks.length - 1)).foldl processSHA256Block INITIAL_HASH
    processFinalBlockUntilLastRound state (blocks.getD (blocks.length - 1) []))

/-- o1js UInt32.addMod32: 32-bit wraparound addition. -/
def addMod32 (x y : Nat) : Nat := (x + y) % 2 ^ 32

/-- rightRotate32 (commitmentHelpers.ts 300-304) over o1js UInt32:
value.rightShift(bits).or(value.leftShift(32 - bits)); the o1js 32-bit left
shift truncates mod 2^32. -/
def rightRotate32 (value bits : Nat) : Nat :=
  (value >>> bits) ||| ((value <<< (32 - bits)) % 2 ^ 32)

/-- o1js UInt32.not: 32-bit bitwise complement. -/
def uint32Not (value : Nat) : Nat := value ^^^ (2 ^ 32 - 1)

/-- performFinalSHA256Round (commitmentHelpers.ts 236-294): replays round 63
from the penultimate state using o1js UInt32 operations, then folds the
result into the chaining state with eight lane-wise addMod32 additions. -/
def performFinalSHA256Round (state initialState : SHA256State)
    (messageWord roundConstant : Nat) : SHA256State :=
  let S1 := rightRotate32 state.e 6 ^^^ rightRotate32 state.e 11 ^^^
    rightRotate32 state.e 25
  let ch := (state.e &&& state.f) ^^^ (uint32Not state.e &&& state.g)
  let temp1 := addMod32 (addMod32 (addMod32 (addMod32 state.h S1) ch)
    roundConstant) messageWord
  let S0 := rightRotate32 state.a 2 ^^^ rightRotate32 state.a 13 ^^^
    rightRotate32 state.a 22
  let maj := (state.a &&& state.b) ^^^ (state.a &&& state.c) ^^^
    (state.b &&& state.c)
  let temp2 := addMod32 S0 maj
  let e2 := addMod32 state.d temp1
  let a2 := addMod32 temp1 temp2
  { a := addMod32 initialState.a a2, b := addMod32 initialState.b state.a,
    c := addMod32 initialState.c state.b, d := addMod32 initialState.d state.c,
    e := addMod32 initialState.e e2, f := addMod32 initialState.f state.e,
    g := addMod32 initialState.g state.f, h := addMod32 initialState.h state.g }

/-- o1js UInt32.toBytesBE as used in AuthenticityProof.ts 364-369: one 32-bit
lane as 4 big-endian bytes. -/
def toBytesBE32 (x : Nat) : List Nat :=
  [(x >>> 24) &&& 255, (x >>> 16) &&& 255, (x >>> 8) &&& 255, x &&& 255]

/-- Big-endian 4-byte-per-lane serialization of an 8-lane state
(AuthenticityProof.ts 364-372). -/
def serializeState (st : SHA256State) : List Nat :=
  toBytesBE32 st.a ++ toBytesBE32 st.b ++ toBytesBE32 st.c ++ toBytesBE32 st.d ++
    toBytesBE32 st.e ++ toBytesBE32 st.f ++ toBytesBE32 st.g ++ toBytesBE32 st.h

/-- The full 64-round reference path: padSHA256Message, processSHA256Block on
every block, big-endian serialization of the final state. -/
def fullPathDigest (data : List Nat) : Option (List Nat) :=
  (padSHA256Message data).map (fun padded =>
    serializeState ((splitBlocks padded).foldl processSHA256Block INITIAL_HASH))

/-- The split path: hashUntilFinalRound, then performFinalSHA256Round on its
outputs, then big-endian serialization. -/
def splitPathDigest (data : List Nat) : Option (List Nat) :=
  (hashUntilFinalRound data).map (fun out =>
    serializeState (performFinalSHA256Round out.penultimateState
      out.finalRoundInputs.initialState out.finalRoundInputs.messageWord
      out.finalRoundInputs.roundConstant))

/-! Hash path lemmas -/

/-- The o1js final round equals the shared reference round body applied to the
penultimate state, followed by the lane-wise chaining addition: the chained
addMod32 operations collapse to single reductions mod 2^32. -/
theorem performFinal_eq_round (st ist : SHA256State) (mw kc : Nat) :
    performFinalSHA256Round st ist mw kc = addStates ist (sha256Round st kc mw) := by
  simp [performFinalSHA256Round, sha256Round, addStates, addMod32,
    rightRotate32, rightRotate, uint32Not, jsNot32, SHA256State.mk.injEq,
    Nat.mod_add_mod, Nat.add_mod_mod]

/-- Running 64 rounds is running 63 rounds and then one round with K[63] and
w[63]. -/
theorem sha256Rounds_succ_63 (w : List Nat) (st : SHA256State) :
    sha256Rounds w 64 st =
      sha256Round (sha256Rounds w 63 st) (K.getD 63 0) (w.getD 63 0) := by
  have h : List.range 64 = List.range 63 ++ [63] := by decide
  simp [sha256Rounds, h]

/-- Replaying the omitted round on the outputs of
processFinalBlockUntilLastRound reproduces the full processSHA256Block on the
same block. -/
theorem split_block_eq (st : SHA256State) (block : List Nat) :
    performFinalSHA256Round (processFinalBlockUntilLastRound st block).penultimateState
      (processFinalBlockUntilLastRound st block).finalRoundInputs.initialState
      (processFinalBlockUntilLastRound st block).finalRoundInputs.messageWord
      (processFinalBlockUntilLastRound st block).finalRoundInputs.roundConstant
    = processSHA256Block st block := by
  simp only [processFinalBlockUntilLastRound, processSHA256Block]
  rw [performFinal_eq_round, ← sha256Rounds_succ_63]

/-- Folding over a nonempty list is folding over all but the last element and
then applying the step once more to the last element. -/
theorem foldl_eq_last {α β : Type} (f : β → α → β) (init : β) (l : List α) (d : α)
    (h : l ≠ []) :
    l.foldl f init = f ((l.take (l.length - 1)).foldl f init) (l.getD (l.length - 1) d) := by
  have hpos : 0 < l.length := List.length_pos.mpr h
  conv_lhs => rw [← List.dropLast_append_getLast h]
  rw [List.foldl_append, List.dropLast_eq_take]
  simp only [List.foldl_cons, List.foldl_nil]
  rw [List.getD_eq_getElem _ _ (by omega), List.getLast_eq_getElem]

/-- C1: for every byte sequence S, the split hashing path - running
performFinalSHA256Round on the outputs of hashUntilFinalRound(S) (its
penultimate 8-lane state, the chaining state entering the last block, the
message-schedule word w[63] and the round constant K[63]) and serializing the
resulting 8-lane state big-endian 4 bytes per lane - agrees with the 32-byte
digest of the full 64-round reference path (padSHA256Message followed by
processSHA256Block on every block); both paths are defined on exactly the
same inputs, including the empty sequence. -/
theorem splitPath_agrees_with_fullPath (S : List Nat) :
    splitPathDigest S = fullPathDigest S := by
  unfold splitPathDigest fullPathDigest hashUntilFinalRound
  cases hp : padSHA256Message S with
  | none => rfl
  | some padded =>
    have hlen : 0 < padded.length := by
      simp [padSHA256Message] at hp
      rcases hp with ⟨-, hpad⟩
      subst hpad
      simp
    have hbs : splitBlocks padded ≠ [] := by
      apply List.length_pos.mp
      have h64 : 0 < (padded.length + 63) / 64 := Nat.div_pos (by omega) (by norm_num)
      simpa [splitBlocks] using h64
    simp only [Option.map, Option.some.injEq]
    rw [split_block_eq,
      foldl_eq_last processSHA256Block INITIAL_HASH (splitBlocks padded) [] hbs]

/-- C2: every addition performed by performFinalSHA256Round - the five-term
temp1 sum, the temp2 sum, the two working-variable updates and the eight
lane-wise chaining additions onto initialState - is 32-bit modular
wraparound addition: for all operand values (no hypotheses, hence no
possible overflow rejection) the function returns each sum reduced mod 2^32,
and every output lane is < 2^32. -/
theorem performFinalSHA256Round_modular_additions (st ist : SHA256State) (mw kc : Nat) :
    (performFinalSHA256Round st ist mw kc =
      (let S1 := rightRotate32 st.e 6 ^^^ rightRotate32 st.e 11 ^^^ rightRotate32 st.e 25
       let ch := (st.e &&& st.f) ^^^ (uint32Not st.e &&& st.g)
       let temp1 := (st.h + S1 + ch + kc + mw) % 2 ^ 32
       let S0 := rightRotate32 st.a 2 ^^^ rightRotate32 st.a 13 ^^^ rightRotate32 st.a 22
       let maj := (st.a &&& st.b) ^^^ (st.a &&& st.c) ^^^ (st.b &&& st.c)
       let temp2 := (S0 + maj) % 2 ^ 32
       { a := (ist.a + (temp1 + temp2)) % 2 ^ 32, b := (ist.b + st.a) % 2 ^ 32,
         c := (ist.c + st.b) % 2 ^ 32, d := (ist.d + st.c) % 2 ^ 32,
         e := (ist.e + (st.d + temp1)) % 2 ^ 32, f := (ist.f + st.e) % 2 ^ 32,
         g := (ist.g + st.f) % 2 ^ 32, h := (ist.h + st.g) % 2 ^ 32 })) ∧
    (performFinalSHA256Round st ist mw kc).a < 2 ^ 32 ∧
    (performFinalSHA256Round st ist mw kc).b < 2 ^ 32 ∧
    (performFinalSHA256Round st ist mw kc).c < 2 ^ 32 ∧
    (performFinalSHA256Round st ist mw kc).d < 2 ^ 32 ∧
    (performFinalSHA256Round st ist mw kc).e < 2 ^ 32 ∧
    (performFinalSHA256Round st ist mw kc).f < 2 ^ 32 ∧
    (performFinalSHA256Round st ist mw kc).g < 2 ^ 32 ∧
    (performFinalSHA256Round st ist mw kc).h < 2 ^ 32 := by
  refine ⟨?_, ?_, ?_, ?_, ?_, ?_, ?_, ?_, ?_⟩
  · dsimp only
    simp only [performFinalSHA256Round, addMod32, SHA256State.mk.injEq]
    refine ⟨?_, ?_, ?_, ?_, ?_, ?_, ?_, ?_⟩ <;> first | trivial | omega
  all_goals
    simp only [performFinalSHA256Round, addMod32]
    omega

/-- The 13-byte ASCII encoding of the string Hello, World!
(commitmentHelpers.test.ts test vector). -/
def helloWorldBytes : List Nat :=
  [72, 101, 108, 108, 111, 44, 32, 87, 111, 114, 108, 100, 33]

/-- The published SHA-256 digest of Hello, World! as 32 bytes: the hex string
dffd6021bb2bd5b0af676290809ec3a53191dd81c7f70a4b28688a362182986f. -/
def helloWorldDigest : List Nat :=
  [0xdf, 0xfd, 0x60, 0x21, 0xbb, 0x2b, 0xd5, 0xb0, 0xaf, 0x67, 0x62, 0x90,
   0x80, 0x9e, 0xc3, 0xa5, 0x31, 0x91, 0xdd, 0x81, 0xc7, 0xf7, 0x0a, 0x4b,
   0x28, 0x68, 0x8a, 0x36, 0x21, 0x82, 0x98, 0x6f]

set_option maxRecDepth 1000000

/-- C3: hashing the 13-byte ASCII input Hello, World! via the full reference
path (padSHA256Message followed by 64-round processSHA256Block) and via the
split path (hashUntilFinalRound followed by performFinalSHA256Round) both
produce the standard published SHA-256 digest
dffd6021bb2bd5b0af676290809ec3a53191dd81c7f70a4b28688a362182986f. -/
theorem helloWorld_known_vector :
    fullPathDigest helloWorldBytes = some helloWorldDigest ∧
      splitPathDigest helloWorldBytes = some helloWorldDigest := by
  decide

/-! CommitmentCodec: SHACommitment limb packing -/

/-- The o1js base field modulus (the Pallas curve base field prime); all
Field arithmetic in the source reduces mod this prime. -/
def pallasP : Nat :=
  28948022309329048855892746252171976963363056481941560715954676764349967630337

/-- One step of the byte-folding loops in toTwoFields and toFourFields
(bytesCompressionHelpers.ts): value.mul(256).add(byte.value) in Field
arithmetic. -/
def fieldStep (acc b : Nat) : Nat := (acc * 256 % pallasP + b) % pallasP

/-- Pure big-endian base-256 fold of a byte list, the mathematical content of
the toTwoFields loops when no reduction occurs. -/
def byteFold (acc : Nat) (bs : List Nat) : Nat :=
  bs.foldl (fun a b => a * 256 + b) acc

/-- Big-endian byte extraction peeling the most significant of n bytes
first; recursion-friendly form of the descending extraction loops of
fromTwoFields. -/
def beExtract : Nat → Nat → List Nat
  | 0, _ => []
  | n + 1, x => (x / 256 ^ n % 256) :: beExtract n x

/-- The byte-extraction loop of SHACommitment.fromTwoFields
(bytesCompressionHelpers.ts): for i = 15 down to 0 push (x >> 8i) & 0xff,
so the j-th pushed byte uses i = 15 - j. -/
def toBEBytes16 (x : Nat) : List Nat :=
  (List.range 16).map (fun j => (x >>> (8 * (15 - j))) &&& 255)

/-- SHACommitment.toTwoFields, high half: fold bytes 0..15 of the 32-byte
commitment as high128 = high128 * 256 + byte in Field arithmetic. -/
def toTwoFieldsHigh (byteArray : List Nat) : Nat :=
  (List.range 16).foldl (fun acc i => (acc * 256 % pallasP + byteArray.getD i 0) % pallasP) 0

/-- SHACommitment.toTwoFields, low half: fold bytes 16..31 of the 32-byte
commitment as low128 = low128 * 256 + byte in Field arithmetic. -/
def toTwoFieldsLow (byteArray : List Nat) : Nat :=
  (List.range' 16 16).foldl (fun acc i => (acc * 256 % pallasP + byteArray.getD i 0) % pallasP) 0

/-- SHACommitment.fromTwoFields (bytesCompressionHelpers.ts): assert each
limb < 2^128, synthesize the 32 big-endian bytes, then self-check by
re-splitting with toTwoFields and asserting equality with the inputs; any
failing assertion is none. -/
def fromTwoFields (high128 low128 : Nat) : Option (List Nat) :=
  if high128 < 2 ^ 128 then
    if low128 < 2 ^ 128 then
      let bytes := toBEBytes16 high128 ++ toBEBytes16 low128
      if toTwoFieldsHigh bytes = high128 ∧ toTwoFieldsLow bytes = low128 then
        some bytes
      else none
    else none
  else none

theorem byteFold_shift (bs : List Nat) :
    ∀ acc, byteFold acc bs = acc * 256 ^ bs.length + byteFold 0 bs := by
  induction bs with
  | nil => simp [byteFold]
  | cons b rest ih =>
    intro acc
    have h0 : byteFold 0 (b :: rest) = byteFold b rest := by simp [byteFold]
    have h1 : byteFold acc (b :: rest) = byteFold (acc * 256 + b) rest := by
      simp [byteFold]
    rw [h0, h1, ih (acc * 256 + b), ih b, List.length_cons, pow_succ]
    ring

theorem byteFold_lt (bs : List Nat) (h : ∀ b ∈ bs, b < 256) :
    byteFold 0 bs < 256 ^ bs.length := by
  induction bs with
  | nil => simp [byteFold]
  | cons b rest ih =>
    have hb : b < 256 := h b (by simp)
    have hrest : ∀ x ∈ rest, x < 256 := fun x hx => h x (by simp [hx])
    have h1 : byteFold 0 (b :: rest) = b * 256 ^ rest.length + byteFold 0 rest := by
      simp only [byteFold, List.foldl_cons]
      simpa [byteFold] using byteFold_shift rest b
    rw [h1, List.length_cons, pow_succ]
    calc b * 256 ^ rest.length + byteFold 0 rest
        < b * 256 ^ rest.length + 256 ^ rest.length := by
          exact Nat.add_lt_add_left (ih hrest) _
      _ = (b + 1) * 256 ^ rest.length := by ring
      _ ≤ 256 * 256 ^ rest.length := Nat.mul_le_mul_right _ (by omega)
      _ = 256 ^ rest.length * 256 := by ring

theorem byteFold_ge (bs : List Nat) (acc : Nat) : acc ≤ byteFold acc bs := by
  rw [byteFold_shift]
  calc acc ≤ acc * 256 ^ bs.length := Nat.le_mul_of_pos_right _ (by positivity)
    _ ≤ acc * 256 ^ bs.length + byteFold 0 bs := Nat.le_add_right _ _

theorem byteFold_beExtract (n : Nat) :
    ∀ x acc, byteFold acc (beExtract n x) = acc * 256 ^ n + x % 256 ^ n := by
  induction n with
  | zero => simp [beExtract, byteFold, Nat.mod_one]
  | succ n ih =>
    intro x acc
    simp only [beExtract, byteFold, List.foldl_cons]
    rw [show List.foldl (fun a b => a * 256 + b) (acc * 256 + x / 256 ^ n % 256)
        (beExtract n x) = byteFold (acc * 256 + x / 256 ^ n % 256) (beExtract n x) from rfl,
      ih]
    have hmm : x % 256 ^ (n + 1) = x % 256 ^ n + 256 ^ n * (x / 256 ^ n % 256) := by
      rw [pow_succ]
      exact Nat.mod_mul
    rw [hmm, pow_succ]
    ring

theorem beExtract_add_high (n : Nat) :
    ∀ b r, beExtract n (b * 256 ^ n + r) = beExtract n r := by
  induction n with
  | zero => simp [beExtract]
  | succ n ih =>
    intro b r
    simp only [beExtract]
    have h1 : (b * 256 ^ (n + 1) + r) / 256 ^ n % 256 = r / 256 ^ n % 256 := by
      rw [pow_succ, show b * (256 ^ n * 256) + r = r + (b * 256) * 256 ^ n by ring,
        Nat.add_mul_div_right _ _ (by positivity), Nat.add_mul_mod_self_right]
    have h2 : beExtract n (b * 256 ^ (n + 1) + r) = beExtract n r := by
      rw [pow_succ, show b * (256 ^ n * 256) + r = (b * 256) * 256 ^ n + r by ring]
      exact ih (b * 256) r
    rw [h1, h2]

theorem beExtract_byteFold (bs : List Nat) (h : ∀ b ∈ bs, b < 256) :
    beExtract bs.length (byteFold 0 bs) = bs := by
  induction bs with
  | nil => simp [beExtract, byteFold]
  | cons b rest ih =>
    have hb : b < 256 := h b (by simp)
    have hrest : ∀ x ∈ rest, x < 256 := fun x hx => h x (by simp [hx])
    have hlt : byteFold 0 rest < 256 ^ rest.length := byteFold_lt rest hrest
    have hfold : byteFold 0 (b :: rest) = b * 256 ^ rest.length + byteFold 0 rest := by
      simp only [byteFold, List.foldl_cons]
      simpa [byteFold] using byteFold_shift rest b
    simp only [List.length_cons, beExtract, hfold]
    have h1 : (b * 256 ^ rest.length + byteFold 0 rest) / 256 ^ rest.length % 256 = b := by
      rw [show b * 256 ^ rest.length + byteFold 0 rest
          = byteFold 0 rest + b * 256 ^ rest.length by ring,
        Nat.add_mul_div_right _ _ (by positivity), Nat.div_eq_of_lt hlt]
      simp [Nat.mod_eq_of_lt hb]
    rw [h1, beExtract_add_high, ih hrest]

theorem fieldFold_eq (bs : List Nat) :
    ∀ acc, byteFold acc bs < pallasP → bs.foldl fieldStep acc = byteFold acc bs := by
  induction bs with
  | nil => intro acc _; simp [byteFold]
  | cons b rest ih =>
    intro acc hlt
    have hfold : byteFold acc (b :: rest) = byteFold (acc * 256 + b) rest := by
      simp [byteFold]
    rw [hfold] at hlt
    have hge : acc * 256 + b ≤ byteFold (acc * 256 + b) rest := byteFold_ge rest _
    have hstep : fieldStep acc b = acc * 256 + b := by
      have h1 : acc * 256 % pallasP = acc * 256 := Nat.mod_eq_of_lt (by omega)
      unfold fieldStep
      rw [h1, Nat.mod_eq_of_lt (by omega)]
    simp only [List.foldl_cons, hstep]
    rw [ih _ hlt, hfold]

theorem shiftRight_and255 (x k : Nat) : (x >>> (8 * k)) &&& 255 = x / 256 ^ k % 256 := by
  rw [Nat.shiftRight_eq_div_pow, show (255 : Nat) = 2 ^ 8 - 1 from rfl,
    Nat.and_pow_two_sub_one_eq_mod, show (2 : Nat) ^ (8 * k) = 256 ^ k by rw [pow_mul]; norm_num,
    show (2 : Nat) ^ 8 = 256 from rfl]

theorem beExtract_eq_map (n x : Nat) :
    beExtract n x = (List.range n).map (fun j => (x >>> (8 * (n - 1 - j))) &&& 255) := by
  induction n with
  | zero => simp [beExtract]
  | succ n ih =>
    rw [List.range_succ_eq_map]
    simp only [List.map_cons, List.map_map]
    simp only [beExtract]
    congr 1
    · rw [shiftRight_and255]
      norm_num
    · rw [ih]
      apply List.map_congr_left
      intro j _
      simp only [Function.comp]
      congr 2
      omega

theorem toBEBytes16_eq (x : Nat) : toBEBytes16 x = beExtract 16 x := by
  rw [beExtract_eq_map, toBEBytes16]

theorem toBEBytes16_length (x : Nat) : (toBEBytes16 x).length = 16 := by
  simp [toBEBytes16]

theorem toBEBytes16_bytes (x : Nat) : ∀ b ∈ toBEBytes16 x, b < 256 := by
  intro b hb
  simp only [toBEBytes16, List.mem_map] at hb
  obtain ⟨j, -, rfl⟩ := hb
  have := Nat.and_le_right (n := x >>> (8 * (15 - j))) (m := 255)
  omega

theorem toTwoFieldsHigh_eq_fold (bs : List Nat) :
    toTwoFieldsHigh bs = ((List.range 16).map (fun i => bs.getD i 0)).foldl fieldStep 0 := by
  rw [List.foldl_map]
  rfl

theorem map_getD_self (v : List Nat) (n : Nat) (hv : v.length = n) :
    (List.range n).map (fun j => v.getD j 0) = v := by
  apply List.ext_getElem
  · simp [hv]
  · intro i h1 h2
    simp only [List.getElem_map, List.getElem_range]
    rw [List.getD_eq_getElem _ _ (by omega)]

theorem toTwoFieldsHigh_append (u v : List Nat) (hu : u.length = 16) :
    toTwoFieldsHigh (u ++ v) = u.foldl fieldStep 0 := by
  rw [toTwoFieldsHigh_eq_fold]
  congr 1
  apply List.ext_getElem
  · simp [hu]
  · intro i h1 h2
    simp only [List.getElem_map, List.getElem_range]
    rw [List.getD_append _ _ _ _ (by omega), List.getD_eq_getElem _ _ (by omega)]

theorem toTwoFieldsLow_append (u v : List Nat) (hu : u.length = 16) (hv : v.length = 16) :
    toTwoFieldsLow (u ++ v) = v.foldl fieldStep 0 := by
  unfold toTwoFieldsLow
  rw [List.range'_eq_map_range, List.foldl_map]
  conv_rhs => rw [← map_getD_self v 16 hv]
  rw [List.foldl_map]
  apply List.foldl_ext
  intro acc j hj
  have hj16 : j < 16 := by simpa using hj
  have hgd : (u ++ v).getD (16 + j) 0 = v.getD j 0 := by
    rw [List.getD_append_right _ _ _ _ (by omega), hu]
    congr 1
    omega
  rw [hgd]
  rfl

theorem pow256_16 : (256 : Nat) ^ 16 = 2 ^ 128 := by norm_num

theorem toTwoFieldsHigh_bytes (u v : List Nat) (hu : u.length = 16)
    (hub : ∀ b ∈ u, b < 256) : toTwoFieldsHigh (u ++ v) = byteFold 0 u := by
  rw [toTwoFieldsHigh_append u v hu]
  apply fieldFold_eq
  have h := byteFold_lt u hub
  rw [hu, pow256_16] at h
  calc byteFold 0 u < 2 ^ 128 := h
    _ < pallasP := by norm_num [pallasP]

theorem toTwoFieldsLow_bytes (u v : List Nat) (hu : u.length = 16) (hv : v.length = 16)
    (hvb : ∀ b ∈ v, b < 256) : toTwoFieldsLow (u ++ v) = byteFold 0 v := by
  rw [toTwoFieldsLow_append u v hu hv]
  apply fieldFold_eq
  have h := byteFold_lt v hvb
  rw [hv, pow256_16] at h
  calc byteFold 0 v < 2 ^ 128 := h
    _ < pallasP := by norm_num [pallasP]

theorem fromTwoFields_eval (hi lo : Nat) (h1 : hi < 2 ^ 128) (h2 : lo < 2 ^ 128) :
    fromTwoFields hi lo = some (toBEBytes16 hi ++ toBEBytes16 lo) ∧
    toTwoFieldsHigh (toBEBytes16 hi ++ toBEBytes16 lo) = hi ∧
    toTwoFieldsLow (toBEBytes16 hi ++ toBEBytes16 lo) = lo := by
  have hH : toTwoFieldsHigh (toBEBytes16 hi ++ toBEBytes16 lo) = hi := by
    rw [toTwoFieldsHigh_bytes _ _ (toBEBytes16_length hi) (toBEBytes16_bytes hi),
      toBEBytes16_eq, byteFold_beExtract]
    rw [pow256_16]
    omega
  have hL : toTwoFieldsLow (toBEBytes16 hi ++ toBEBytes16 lo) = lo := by
    rw [toTwoFieldsLow_bytes _ _ (toBEBytes16_length hi) (toBEBytes16_length lo)
      (toBEBytes16_bytes lo), toBEBytes16_eq, byteFold_beExtract]
    rw [pow256_16]
    omega
  refine ⟨?_, hH, hL⟩
  unfold fromTwoFields
  rw [if_pos h1, if_pos h2]
  simp [hH, hL]

/-- C4: for all high, low in [0, 2^128), fromTwoFields succeeds and
toTwoFields of the result returns exactly (high, low); conversely, for every
32-byte digest d, fromTwoFields applied to the two fields of toTwoFields(d)
reconstructs d exactly - the round trip holds in both directions. -/
theorem claim_C4 :
    (∀ high128 low128 : Nat, high128 < 2 ^ 128 → low128 < 2 ^ 128 →
      ∃ d, fromTwoFields high128 low128 = some d ∧
        toTwoFieldsHigh d = high128 ∧ toTwoFieldsLow d = low128) ∧
    (∀ d : List Nat, d.length = 32 → (∀ b ∈ d, b < 256) →
      fromTwoFields (toTwoFieldsHigh d) (toTwoFieldsLow d) = some d) := by
  constructor
  · intro hi lo h1 h2
    obtain ⟨he, hH, hL⟩ := fromTwoFields_eval hi lo h1 h2
    exact ⟨_, he, hH, hL⟩
  · intro d hd hbytes
    have hud : d.take 16 ++ d.drop 16 = d := List.take_append_drop 16 d
    have hu : (d.take 16).length = 16 := by simp [hd]
    have hv : (d.drop 16).length = 16 := by simp [hd]
    have hub : ∀ b ∈ d.take 16, b < 256 := fun b hb => hbytes b (List.take_subset _ _ hb)
    have hvb : ∀ b ∈ d.drop 16, b < 256 := fun b hb => hbytes b (List.drop_subset _ _ hb)
    have hH : toTwoFieldsHigh d = byteFold 0 (d.take 16) := by
      conv_lhs => rw [← hud]
      exact toTwoFieldsHigh_bytes _ _ hu hub
    have hL : toTwoFieldsLow d = byteFold 0 (d.drop 16) := by
      conv_lhs => rw [← hud]
      exact toTwoFieldsLow_bytes _ _ hu hv hvb
    have hHlt : byteFold 0 (d.take 16) < 2 ^ 128 := by
      have h := byteFold_lt _ hub
      rwa [hu, pow256_16] at h
    have hLlt : byteFold 0 (d.drop 16) < 2 ^ 128 := by
      have h := byteFold_lt _ hvb
      rwa [hv, pow256_16] at h
    obtain ⟨he, -, -⟩ := fromTwoFields_eval _ _ hHlt hLlt
    rw [hH, hL, he, toBEBytes16_eq, toBEBytes16_eq]
    have h1 : beExtract 16 (byteFold 0 (d.take 16)) = d.take 16 := by
      have h := beExtract_byteFold (d.take 16) hub
      rwa [hu] at h
    have h2 : beExtract 16 (byteFold 0 (d.drop 16)) = d.drop 16 := by
      have h := beExtract_byteFold (d.drop 16) hvb
      rwa [hv] at h
    rw [h1, h2, hud]

/-- Witness for C4 at the concrete limbs (3, 5) and at the concrete 32-byte
digest of the known test vector. -/
theorem claim_C4_witness :
    (∃ d, fromTwoFields 3 5 = some d ∧ toTwoFieldsHigh d = 3 ∧ toTwoFieldsLow d = 5) ∧
    fromTwoFields (toTwoFieldsHigh helloWorldDigest) (toTwoFieldsLow helloWorldDigest) =
      some helloWorldDigest :=
  ⟨claim_C4.1 3 5 (by norm_num) (by norm_num),
   claim_C4.2 helloWorldDigest (by decide) (by decide)⟩

/-- C5: fromTwoFields fails (none) whenever high >= 2^128 or low >= 2^128 -
in particular at (2^128, 0) - while (2^128 - 1, 2^128 - 1) succeeds and
round-trips; no out-of-range limb is silently clamped. -/
theorem claim_C5 :
    (∀ high128 low128 : Nat, 2 ^ 128 ≤ high128 ∨ 2 ^ 128 ≤ low128 →
      fromTwoFields high128 low128 = none) ∧
    fromTwoFields (2 ^ 128) 0 = none ∧
    (∃ d, fromTwoFields (2 ^ 128 - 1) (2 ^ 128 - 1) = some d ∧
      toTwoFieldsHigh d = 2 ^ 128 - 1 ∧ toTwoFieldsLow d = 2 ^ 128 - 1) := by
  have hrej : ∀ high128 low128 : Nat, 2 ^ 128 ≤ high128 ∨ 2 ^ 128 ≤ low128 →
      fromTwoFields high128 low128 = none := by
    intro hi lo h
    unfold fromTwoFields
    rcases Nat.lt_or_ge hi (2 ^ 128) with h1 | h1
    · rw [if_pos h1, if_neg (show ¬ lo < 2 ^ 128 by omega)]
    · rw [if_neg (Nat.not_lt.mpr h1)]
  refine ⟨hrej, hrej (2 ^ 128) 0 (Or.inl (le_refl _)), ?_⟩
  obtain ⟨he, hH, hL⟩ := fromTwoFields_eval (2 ^ 128 - 1) (2 ^ 128 - 1)
    (by norm_num) (by norm_num)
  exact ⟨_, he, hH, hL⟩

/-- Witness for C5: the rejection branch applied at the concrete limbs
(2^128, 5). -/
theorem claim_C5_witness : fromTwoFields (2 ^ 128) 5 = none :=
  claim_C5.1 (2 ^ 128) 5 (Or.inl (le_refl _))

/-! PackedCounterBank: PackedImageChainCounters -/

/-- o1js Field.fromBits: little-endian interpretation of a bit list. -/
def fromBitsNat (bs : List Bool) : Nat :=
  bs.foldr (fun b acc => (if b then 1 else 0) + 2 * acc) 0

/-- PackedImageChainCounters.getChainLength (stateHelpers.ts): decompose the
bank into 254 little-endian bits (field.toBits(254) asserts the bank fits in
254 bits, modelled by the guard), then an oblivious scan over all 25 slots
selecting the 10-bit window of the matching chain id; a non-matching id
leaves the running result 0.  The chain id is the UInt8 value compared by
field equality against each index. -/
def getChainLength (bank chainId : Nat) : Option Nat :=
  if bank < 2 ^ 254 then
    some ((List.range 25).foldl (fun result i =>
      if chainId = i then
        fromBitsNat ((((List.range 254).map bank.testBit).drop (i * 10)).take 10)
      else result) 0)
  else none

/-- PackedImageChainCounters.setChainLength (stateHelpers.ts): assert the new
length is at most 1023, decompose the bank into 254 bits, then for every
slot and every bit of its 10-bit window conditionally overwrite the bit with
the corresponding bit of the new length when the slot index equals the chain
id, finally recompose the field from the updated bits. -/
def setChainLength (bank chainId newLength : Nat) : Option Nat :=
  if newLength ≤ 1023 then
    if bank < 2 ^ 254 then
      let bits := (List.range 254).map bank.testBit
      let newBits := (List.range 10).map newLength.testBit
      some (fromBitsNat ((List.range 25).foldl (fun bs chainIndex =>
        (List.range 10).foldl (fun l bitIndex =>
          l.set (chainIndex * 10 + bitIndex)
            (if chainId = chainIndex then newBits.getD bitIndex false
             else l.getD (chainIndex * 10 + bitIndex) false)) bs) bits))
    else none
  else none

/-- PackedImageChainCounters.incrementChain (stateHelpers.ts): read the
current length, assert it is strictly below 1023, then store current + 1.
The inner 2^32 guard models the range check of the o1js UInt32.add used for
the increment; it can never fire here since current + 1 is at most 1023. -/
def incrementChain (bank chainId : Nat) : Option Nat :=
  (getChainLength bank chainId).bind (fun currentLength =>
    if currentLength < 1023 then
      if currentLength + 1 < 2 ^ 32 then
        setChainLength bank chainId (currentLength + 1)
      else none
    else none)

/-- PackedImageChainCounters.isChainFull (stateHelpers.ts): the current
length equals the 1023 maximum. -/
def isChainFull (bank chainId : Nat) : Option Bool :=
  (getChainLength bank chainId).map (fun currentLength => decide (currentLength = 1023))

theorem fromBitsNat_lt (bs : List Bool) : fromBitsNat bs < 2 ^ bs.length := by
  induction bs with
  | nil => simp [fromBitsNat]
  | cons b rest ih =>
    simp only [fromBitsNat, List.foldr_cons, List.length_cons] at *
    cases b <;> (simp; omega)

theorem testBit_fromBitsNat (bs : List Bool) :
    ∀ j, (fromBitsNat bs).testBit j = bs.getD j false := by
  induction bs with
  | nil => intro j; simp [fromBitsNat]
  | cons b rest ih =>
    intro j
    have hstep : fromBitsNat (b :: rest) = (if b then 1 else 0) + 2 * fromBitsNat rest := by
      simp [fromBitsNat]
    cases j with
    | zero =>
      rw [hstep, Nat.testBit_zero]
      cases b <;> simp [Nat.add_mul_mod_self_left]
    | succ j =>
      rw [hstep, Nat.testBit_add_one]
      have hdiv : ((if b then 1 else 0) + 2 * fromBitsNat rest) / 2 = fromBitsNat rest := by
        cases b <;> simp <;> omega
      rw [hdiv, ih j]
      simp

theorem fromBitsNat_window (k : Nat) :
    ∀ s x, fromBitsNat ((List.range k).map (fun j => x.testBit (s + j))) =
      x / 2 ^ s % 2 ^ k := by
  induction k with
  | zero => intro s x; simp [fromBitsNat, Nat.mod_one]
  | succ k ih =>
    intro s x
    rw [List.range_succ_eq_map, List.map_cons, List.map_map]
    have hfun : ((fun j => x.testBit (s + j)) ∘ Nat.succ) = fun j => x.testBit (s + 1 + j) := by
      funext j
      simp only [Function.comp]
      congr 1
      omega
    rw [hfun]
    have hcons : fromBitsNat (x.testBit (s + 0) ::
        (List.range k).map (fun j => x.testBit (s + 1 + j))) =
        (if x.testBit s then 1 else 0) +
          2 * fromBitsNat ((List.range k).map (fun j => x.testBit (s + 1 + j))) := by
      simp [fromBitsNat]
    rw [hcons, ih (s + 1) x]
    have hb : (if x.testBit s then 1 else 0) = x / 2 ^ s % 2 := by
      rw [Nat.testBit_to_div_mod]
      rcases Nat.mod_two_eq_zero_or_one (x / 2 ^ s) with h | h <;> simp [h]
    have hdd : x / 2 ^ (s + 1) = x / 2 ^ s / 2 := by
      rw [pow_succ, Nat.div_div_eq_div_mul]
    have hsplit : x / 2 ^ s % 2 ^ (k + 1) =
        x / 2 ^ s % 2 + 2 * (x / 2 ^ s / 2 % 2 ^ k) := by
      rw [pow_succ, mul_comm (2 ^ k) 2]
      exact Nat.mod_mul
    rw [hb, hdd, hsplit]

theorem slice_bits (x s k n : Nat) (h : s + k ≤ n) :
    ((((List.range n).map x.testBit).drop s).take k) =
      (List.range k).map (fun j => x.testBit (s + j)) := by
  apply List.ext_getElem
  · simp
    omega
  · intro i h1 h2
    simp [List.getElem_take, List.getElem_drop]

theorem scanFold {α : Type} (n : Nat) (id : Nat) (f : Nat → α) (z : α) :
    (List.range n).foldl (fun acc i => if id = i then f i else acc) z =
      if id < n then f id else z := by
  induction n with
  | zero => simp
  | succ n ih =>
    rw [List.range_succ, List.foldl_append]
    simp only [List.foldl_cons, List.foldl_nil, ih]
    rcases Nat.lt_trichotomy id n with h | h | h
    · rw [if_pos h, if_neg (by omega), if_pos (by omega)]
    · subst h
      rw [if_pos rfl, if_pos (by omega)]
    · rw [if_neg (by omega), if_neg (by omega), if_neg (by omega)]

theorem getChainLength_eq (bank id : Nat) (hbank : bank < 2 ^ 254) (hid : id < 25) :
    getChainLength bank id = some (bank / 2 ^ (id * 10) % 1024) := by
  unfold getChainLength
  rw [if_pos hbank, scanFold 25 id
    (fun i => fromBitsNat ((((List.range 254).map bank.testBit).drop (i * 10)).take 10)) 0,
    if_pos hid, slice_bits bank (id * 10) 10 254 (by omega), fromBitsNat_window]
  norm_num

theorem getChainLength_out (bank id : Nat) (hbank : bank < 2 ^ 254) (hid : 25 ≤ id) :
    getChainLength bank id = some 0 := by
  unfold getChainLength
  rw [if_pos hbank, scanFold 25 id
    (fun i => fromBitsNat ((((List.range 254).map bank.testBit).drop (i * 10)).take 10)) 0,
    if_neg (by omega)]

theorem getD_set (l : List Bool) (i j : Nat) (a : Bool) :
    (l.set i a).getD j false = if i = j ∧ i < l.length then a else l.getD j false := by
  rw [List.getD_eq_getElem?_getD, List.getElem?_set, List.getD_eq_getElem?_getD]
  by_cases h1 : i = j
  · subst h1
    by_cases h2 : i < l.length
    · simp [h2]
    · rw [if_pos rfl, if_neg h2, if_neg (by omega)]
      rw [List.getElem?_eq_none (by omega)]
  · rw [if_neg h1, if_neg (by simp [h1])]

theorem set_getD_self (l : List Bool) (i : Nat) : l.set i (l.getD i false) = l := by
  apply List.ext_getElem?
  intro n
  rw [List.getElem?_set]
  by_cases h : i = n
  · subst h
    by_cases h2 : i < l.length
    · rw [if_pos rfl, if_pos h2, List.getD_eq_getElem?_getD, List.getElem?_eq_getElem h2]
      rfl
    · rw [if_pos rfl, if_neg h2, List.getElem?_eq_none (by omega)]
  · rw [if_neg h]

theorem foldl_set_self (ps : List Nat) (g : Nat → Nat) :
    ∀ l : List Bool, ps.foldl (fun l p => l.set (g p) (l.getD (g p) false)) l = l := by
  induction ps with
  | nil => intro l; rfl
  | cons p rest ih =>
    intro l
    simp only [List.foldl_cons]
    rw [set_getD_self]
    exact ih l

theorem window_fold_length (k base : Nat) (nb : List Bool) (bs : List Bool) :
    ((List.range k).foldl (fun l bi => l.set (base + bi) (nb.getD bi false)) bs).length
      = bs.length := by
  induction k with
  | zero => rfl
  | succ k ih =>
    rw [List.range_succ, List.foldl_append]
    simp only [List.foldl_cons, List.foldl_nil, List.length_set]
    exact ih

theorem window_fold_getD (k base : Nat) (nb : List Bool) (bs : List Bool) (j : Nat)
    (h : base + k ≤ bs.length) :
    ((List.range k).foldl (fun l bi => l.set (base + bi) (nb.getD bi false)) bs).getD j false
      = if base ≤ j ∧ j < base + k then nb.getD (j - base) false else bs.getD j false := by
  induction k with
  | zero => rw [if_neg (by omega)]; rfl
  | succ k ih =>
    rw [List.range_succ, List.foldl_append]
    simp only [List.foldl_cons, List.foldl_nil]
    rw [getD_set]
    have hlen := window_fold_length k base nb bs
    by_cases hj : base + k = j
    · rw [if_pos ⟨hj, by omega⟩, if_pos (by omega)]
      congr 1
      omega
    · rw [if_neg (fun hc => hj hc.1), ih (by omega)]
      by_cases hin : base ≤ j ∧ j < base + k
      · rw [if_pos hin, if_pos (by omega)]
      · rw [if_neg hin, if_neg (by omega)]

theorem outer_fold_eq {α : Type} (step : α → Nat → α) (id n : Nat)
    (hother : ∀ (x : α) (c : Nat), id ≠ c → step x c = x) (z : α) :
    (List.range n).foldl step z = if id < n then step z id else z := by
  induction n with
  | zero => simp
  | succ n ih =>
    rw [List.range_succ, List.foldl_append]
    simp only [List.foldl_cons, List.foldl_nil, ih]
    by_cases h : id = n
    · subst h
      rw [if_neg (lt_irrefl id), if_pos (by omega)]
    · rw [hother _ n h]
      by_cases h2 : id < n
      · rw [if_pos h2, if_pos (by omega)]
      · rw [if_neg h2, if_neg (by omega)]

theorem getD_map_range {α : Type} (f : Nat → α) (d : α) (m n : Nat) (h : m < n) :
    ((List.range n).map f).getD m d = f m := by
  rw [List.getD_eq_getElem _ _ (by simp [h])]
  simp

theorem testBit_bits_getD (bank j : Nat) (hbank : bank < 2 ^ 254) :
    ((List.range 254).map bank.testBit).getD j false = bank.testBit j := by
  by_cases h : j < 254
  · exact getD_map_range _ _ _ _ h
  · rw [List.getD_eq_getElem?_getD, List.getElem?_eq_none (by simp; omega)]
    have hz : bank.testBit j = false := Nat.testBit_lt_two_pow
      (lt_of_lt_of_le hbank (Nat.pow_le_pow_right (by norm_num) (by omega)))
    simp [hz]

theorem window_value (x id : Nat) :
    x / 2 ^ (id * 10) % 1024 =
      fromBitsNat ((List.range 10).map (fun j => x.testBit (id * 10 + j))) := by
  rw [fromBitsNat_window]
  norm_num

theorem fromBits_testBit_self (v : Nat) (hv : v ≤ 1023) :
    fromBitsNat ((List.range 10).map v.testBit) = v := by
  have h := fromBitsNat_window 10 0 v
  simp only [Nat.zero_add] at h
  calc fromBitsNat ((List.range 10).map v.testBit) = v / 2 ^ 0 % 2 ^ 10 := h
    _ = v := by norm_num; omega

theorem inner_fold_skip (id v : Nat) (bs : List Bool) (c : Nat) (hc : id ≠ c) :
    (List.range 10).foldl (fun l bitIndex =>
      l.set (c * 10 + bitIndex)
        (if id = c then ((List.range 10).map v.testBit).getD bitIndex false
         else l.getD (c * 10 + bitIndex) false)) bs = bs := by
  have hfn : (fun (l : List Bool) (bitIndex : Nat) =>
      l.set (c * 10 + bitIndex)
        (if id = c then ((List.range 10).map v.testBit).getD bitIndex false
         else l.getD (c * 10 + bitIndex) false))
      = fun (l : List Bool) (bitIndex : Nat) =>
          l.set (c * 10 + bitIndex) (l.getD (c * 10 + bitIndex) false) := by
    funext l bi
    rw [if_neg hc]
  rw [hfn]
  exact foldl_set_self (List.range 10) (fun bi => c * 10 + bi) bs

theorem setFold_char (bank id v : Nat) (hid : id < 25) :
    (List.range 25).foldl (fun bs chainIndex =>
        (List.range 10).foldl (fun l bitIndex =>
          l.set (chainIndex * 10 + bitIndex)
            (if id = chainIndex then ((List.range 10).map v.testBit).getD bitIndex false
             else l.getD (chainIndex * 10 + bitIndex) false)) bs)
      ((List.range 254).map bank.testBit)
    = (List.range 10).foldl (fun l bitIndex =>
        l.set (id * 10 + bitIndex) (((List.range 10).map v.testBit).getD bitIndex false))
      ((List.range 254).map bank.testBit) := by
  rw [outer_fold_eq _ id 25 (fun bs c hc => inner_fold_skip id v bs c hc), if_pos hid]
  have hfn2 : (fun (l : List Bool) (bitIndex : Nat) =>
      l.set (id * 10 + bitIndex)
        (if id = id then ((List.range 10).map v.testBit).getD bitIndex false
         else l.getD (id * 10 + bitIndex) false))
      = fun (l : List Bool) (bitIndex : Nat) =>
          l.set (id * 10 + bitIndex) (((List.range 10).map v.testBit).getD bitIndex false) := by
    funext l bi
    rw [if_pos rfl]
  rw [hfn2]

theorem setFold_skip (bank id v : Nat) (hid : 25 ≤ id) :
    (List.range 25).foldl (fun bs chainIndex =>
        (List.range 10).foldl (fun l bitIndex =>
          l.set (chainIndex * 10 + bitIndex)
            (if id = chainIndex then ((List.range 10).map v.testBit).getD bitIndex false
             else l.getD (chainIndex * 10 + bitIndex) false)) bs)
      ((List.range 254).map bank.testBit)
    = (List.range 254).map bank.testBit := by
  rw [outer_fold_eq _ id 25 (fun bs c hc => inner_fold_skip id v bs c hc), if_neg (by omega)]

theorem fromBits_bankBits (bank : Nat) (hbank : bank < 2 ^ 254) :
    fromBitsNat ((List.range 254).map bank.testBit) = bank := by
  have h := fromBitsNat_window 254 0 bank
  simp only [Nat.zero_add] at h
  calc fromBitsNat ((List.range 254).map bank.testBit) = bank / 2 ^ 0 % 2 ^ 254 := h
    _ = bank := by rw [pow_zero, Nat.div_one]; exact Nat.mod_eq_of_lt hbank

theorem setChainLength_full (bank id v : Nat) (hbank : bank < 2 ^ 254) (hid : id < 25)
    (hv : v ≤ 1023) :
    ∃ bank2, setChainLength bank id v = some bank2 ∧ bank2 < 2 ^ 254 ∧
      (∀ j, j < 10 → bank2.testBit (id * 10 + j) = v.testBit j) ∧
      (∀ j, j < id * 10 ∨ id * 10 + 10 ≤ j → bank2.testBit j = bank.testBit j) := by
  refine ⟨fromBitsNat ((List.range 10).foldl (fun l bitIndex =>
      l.set (id * 10 + bitIndex) (((List.range 10).map v.testBit).getD bitIndex false))
    ((List.range 254).map bank.testBit)), ?_, ?_, ?_, ?_⟩
  · unfold setChainLength
    rw [if_pos hv, if_pos hbank]
    exact congrArg some (congrArg fromBitsNat (setFold_char bank id v hid))
  · have hlen : ((List.range 10).foldl (fun l bitIndex =>
        l.set (id * 10 + bitIndex) (((List.range 10).map v.testBit).getD bitIndex false))
        ((List.range 254).map bank.testBit)).length = 254 := by
      rw [window_fold_length]
      simp
    have h := fromBitsNat_lt ((List.range 10).foldl (fun l bitIndex =>
        l.set (id * 10 + bitIndex) (((List.range 10).map v.testBit).getD bitIndex false))
      ((List.range 254).map bank.testBit))
    rwa [hlen] at h
  · intro j hj
    rw [testBit_fromBitsNat, window_fold_getD 10 (id * 10) _ _ _ (by simp; omega),
      if_pos (by omega), show id * 10 + j - id * 10 = j by omega]
    exact getD_map_range v.testBit false j 10 hj
  · intro j hj
    rw [testBit_fromBitsNat, window_fold_getD 10 (id * 10) _ _ _ (by simp; omega),
      if_neg (by omega)]
    exact testBit_bits_getD bank j hbank

theorem set_then_get (bank id v : Nat) (hbank : bank < 2 ^ 254) (hid : id < 25)
    (hv : v ≤ 1023) :
    ∃ bank2, setChainLength bank id v = some bank2 ∧ bank2 < 2 ^ 254 ∧
      getChainLength bank2 id = some v ∧
      (∀ id2, id2 < 25 → id2 ≠ id → getChainLength bank2 id2 = getChainLength bank id2) ∧
      (∀ j, j < id * 10 ∨ id * 10 + 10 ≤ j → bank2.testBit j = bank.testBit j) := by
  obtain ⟨bank2, hset, hb2, hwin, hframe⟩ := setChainLength_full bank id v hbank hid hv
  refine ⟨bank2, hset, hb2, ?_, ?_, hframe⟩
  · rw [getChainLength_eq bank2 id hb2 hid]
    congr 1
    rw [window_value]
    have hmaps : (List.range 10).map (fun j => bank2.testBit (id * 10 + j)) =
        (List.range 10).map v.testBit :=
      List.map_congr_left (fun j hj => hwin j (by simpa using hj))
    rw [hmaps]
    exact fromBits_testBit_self v hv
  · intro id2 h25 hne
    rw [getChainLength_eq bank2 id2 hb2 h25, getChainLength_eq bank id2 hbank h25]
    congr 1
    rw [window_value, window_value]
    congr 1
    apply List.map_congr_left
    intro j hj
    have hj10 : j < 10 := by simpa using hj
    exact hframe (id2 * 10 + j) (by omega)

theorem increment_step (bank id current : Nat) (hbank : bank < 2 ^ 254) (hid : id < 25)
    (hget : getChainLength bank id = some current) (hlt : current < 1023) :
    ∃ bank2, incrementChain bank id = some bank2 ∧ bank2 < 2 ^ 254 ∧
      getChainLength bank2 id = some (current + 1) := by
  obtain ⟨bank2, hset, hb2, hget2, -, -⟩ :=
    set_then_get bank id (current + 1) hbank hid (by omega)
  refine ⟨bank2, ?_, hb2, hget2⟩
  unfold incrementChain
  rw [hget]
  show (if current < 1023 then
      if current + 1 < 2 ^ 32 then setChainLength bank id (current + 1) else none
    else none) = some bank2
  rw [if_pos hlt, if_pos (by omega), hset]

/-- n successive incrementChain calls on one chain, starting from a given
bank; scaffolding for the saturation property. -/
def repeatIncrement : Nat → Nat → Nat → Option Nat
  | 0, bank, _ => some bank
  | n + 1, bank, chainId =>
    (repeatIncrement n bank chainId).bind (fun b => incrementChain b chainId)

theorem repeat_inc_zero : ∀ n, n ≤ 1023 →
    ∃ b, repeatIncrement n 0 0 = some b ∧ b < 2 ^ 254 ∧ getChainLength b 0 = some n := by
  intro n
  induction n with
  | zero =>
    intro _
    refine ⟨0, rfl, by positivity, ?_⟩
    rw [getChainLength_eq 0 0 (by positivity) (by norm_num)]
    norm_num
  | succ n ih =>
    intro hn
    obtain ⟨b, hrep, hb, hget⟩ := ih (by omega)
    obtain ⟨b2, hinc, hb2, hget2⟩ := increment_step b 0 n hb (by norm_num) hget (by omega)
    refine ⟨b2, ?_, hb2, hget2⟩
    show (repeatIncrement n 0 0).bind (fun b => incrementChain b 0) = some b2
    rw [hrep]
    show incrementChain b 0 = some b2
    exact hinc

/-- C6: for every well-formed bank and chain id in [0,24], incrementChain
fails exactly when the counter holds 1023 and otherwise returns a bank whose
counter holds current + 1 (it never wraps); from the all-zero bank, 1023
successive increments of counter 0 succeed, isChainFull then holds, and the
1024th increment fails. -/
theorem claim_C6 :
    (∀ bank id current, bank < 2 ^ 254 → id < 25 →
        getChainLength bank id = some current →
        ((incrementChain bank id = none ↔ current = 1023) ∧
          (current < 1023 → ∃ bank2, incrementChain bank id = some bank2 ∧
            getChainLength bank2 id = some (current + 1)))) ∧
    (∃ bankFull, repeatIncrement 1023 0 0 = some bankFull ∧
      isChainFull bankFull 0 = some true ∧ repeatIncrement 1024 0 0 = none) := by
  constructor
  · intro bank id current hbank hid hget
    have hle : current ≤ 1023 := by
      have hch := getChainLength_eq bank id hbank hid
      have h2 : bank / 2 ^ (id * 10) % 1024 = current := by
        have := hch.symm.trans hget
        exact Option.some.inj this
      omega
    constructor
    · constructor
      · intro hnone
        by_contra hne
        obtain ⟨b2, hinc, -, -⟩ := increment_step bank id current hbank hid hget (by omega)
        rw [hinc] at hnone
        cases hnone
      · intro hcur
        subst hcur
        simp [incrementChain, hget]
    · intro hlt
      obtain ⟨b2, hinc, -, hget2⟩ := increment_step bank id current hbank hid hget hlt
      exact ⟨b2, hinc, hget2⟩
  · obtain ⟨b, hrep, hb, hget⟩ := repeat_inc_zero 1023 (le_refl _)
    refine ⟨b, hrep, ?_, ?_⟩
    · unfold isChainFull
      rw [hget]
      rfl
    · show (repeatIncrement 1023 0 0).bind (fun b => incrementChain b 0) = none
      rw [hrep]
      show incrementChain b 0 = none
      simp [incrementChain, hget]

/-- Witness for C6 at the all-zero bank and chain 0, whose counter reads 0. -/
theorem claim_C6_witness :
    (incrementChain 0 0 = none ↔ 0 = 1023) ∧
    (0 < 1023 → ∃ bank2, incrementChain 0 0 = some bank2 ∧
      getChainLength bank2 0 = some 1) :=
  claim_C6.1 0 0 0 (by positivity) (by norm_num) (by decide)

/-- C7: setChainLength changes only the 10-bit window of the target id:
reading the target back gives the new value, every other id in [0,24] is
unchanged, and every bit of the bank outside the window - including the
headroom bits 250..253 - is unchanged. -/
theorem claim_C7 (bank id v : Nat) (hbank : bank < 2 ^ 254) (hid : id < 25)
    (hv : v ≤ 1023) :
    ∃ bank2, setChainLength bank id v = some bank2 ∧
      getChainLength bank2 id = some v ∧
      (∀ id2, id2 < 25 → id2 ≠ id → getChainLength bank2 id2 = getChainLength bank id2) ∧
      (∀ j, j < id * 10 ∨ id * 10 + 10 ≤ j → bank2.testBit j = bank.testBit j) := by
  obtain ⟨bank2, hset, -, hget, hothers, hframe⟩ := set_then_get bank id v hbank hid hv
  exact ⟨bank2, hset, hget, hothers, hframe⟩

/-- Witness for C7 at bank 0, id 5, value 7. -/
theorem claim_C7_witness :
    ∃ bank2, setChainLength 0 5 7 = some bank2 ∧
      getChainLength bank2 5 = some 7 ∧
      (∀ id2, id2 < 25 → id2 ≠ 5 → getChainLength bank2 id2 = getChainLength 0 id2) ∧
      (∀ j, j < 5 * 10 ∨ 5 * 10 + 10 ≤ j → bank2.testBit j = Nat.testBit 0 j) :=
  claim_C7 0 5 7 (by positivity) (by norm_num) (by norm_num)

/-- The chain-id guard of AuthenticityZkApp.verifyAndStore (line 71):
chainId.assertLessThanOrEqual(24). -/
def verifyAndStoreChainIdCheck (chainId : Nat) : Option Unit :=
  if chainId ≤ 24 then some () else none

/-- C9 counterexample: with the out-of-range id 25, getChainLength does not
fail - it scans and returns 0 - and setChainLength does not fail either, it
returns the bank unchanged. -/
theorem claim_C9_counterexample :
    getChainLength 3 25 = some 0 ∧ setChainLength 3 25 7 = some 3 := by
  constructor
  · rw [getChainLength_out 3 25 (by norm_num) (by norm_num)]
  · have h := setFold_skip 3 25 7 (by norm_num)
    unfold setChainLength
    rw [if_pos (by norm_num), if_pos (by norm_num)]
    exact congrArg some ((congrArg fromBitsNat h).trans (fromBits_bankBits 3 (by norm_num)))

/-- C9 amended: the out-of-range rejection lives in the caller - the
verifyAndStore guard rejects any chain id above 24 before the counter bank
is touched - while getChainLength and setChainLength themselves do not
range-check the id: on an id outside [0,24] the scan matches no slot, get
returns 0 and set stores nothing, returning the bank unchanged. -/
theorem claim_C9_amended :
    (∀ chainId, 25 ≤ chainId → verifyAndStoreChainIdCheck chainId = none) ∧
    (∀ bank chainId, bank < 2 ^ 254 → 25 ≤ chainId →
      getChainLength bank chainId = some 0 ∧
      ∀ v, v ≤ 1023 → setChainLength bank chainId v = some bank) := by
  constructor
  · intro c hc
    unfold verifyAndStoreChainIdCheck
    rw [if_neg (by omega)]
  · intro bank c hbank hc
    refine ⟨getChainLength_out bank c hbank hc, ?_⟩
    intro v hv
    unfold setChainLength
    rw [if_pos hv, if_pos hbank]
    exact congrArg some
      ((congrArg fromBitsNat (setFold_skip bank c v hc)).trans (fromBits_bankBits bank hbank))

/-- Witness for the amended C9 at chain id 30 and bank 5. -/
theorem claim_C9_amended_witness :
    verifyAndStoreChainIdCheck 30 = none ∧
    (getChainLength 5 30 = some 0 ∧ ∀ v, v ≤ 1023 → setChainLength 5 30 v = some 5) :=
  ⟨claim_C9_amended.1 30 (by norm_num),
   claim_C9_amended.2 5 30 (by norm_num) (by norm_num)⟩

/-- Modelled from the spec: PackedImageChainCounters.findLongestChain is
called by BatchReducerUtils.computeWinner (BatchReducer.ts 58-67) but its
implementation file is not among the sources.  Per spec section 4.4: a
linear scan over the 25 counters returning the (index, value) pair of the
maximum, where a candidate overwrites the running maximum only on strict
improvement, so ties keep the lowest index; counter i is read from the
10-bit window at bit i*10 of the bank, which must fit in 254 bits. -/
def findLongestChain (chainCounters : Nat) : Option (Nat × Nat) :=
  if chainCounters < 2 ^ 254 then
    some ((List.range 25).foldl (fun best i =>
      if best.2 < chainCounters / 2 ^ (i * 10) % 1024
      then (i, chainCounters / 2 ^ (i * 10) % 1024) else best)
      (0, chainCounters / 2 ^ (0 * 10) % 1024))
  else none

/-- BatchReducerUtils.computeWinner (BatchReducer.ts 58-67): returns the
(winnerChainId, winnerLength) pair of findLongestChain. -/
def computeWinner (chainCounters : Nat) : Option (Nat × Nat) :=
  findLongestChain chainCounters

theorem findMax_fold (c : Nat → Nat) :
    ∀ n p, (List.range n).foldl
        (fun best i => if best.2 < c i then (i, c i) else best) (0, c 0) = p →
      (p.1 < n ∨ p.1 = 0) ∧ p.2 = c p.1 ∧ (∀ j, j < n → c j ≤ p.2) ∧
        (∀ j, j < n → c j = p.2 → p.1 ≤ j) := by
  intro n
  induction n with
  | zero =>
    intro p hp
    simp only [List.range_zero, List.foldl_nil] at hp
    subst hp
    refine ⟨Or.inr rfl, rfl, ?_, ?_⟩ <;> intro j hj <;> omega
  | succ n ih =>
    intro p hp
    rw [List.range_succ, List.foldl_append] at hp
    simp only [List.foldl_cons, List.foldl_nil] at hp
    obtain ⟨h1, h2, h3, h4⟩ := ih ((List.range n).foldl
      (fun best i => if best.2 < c i then (i, c i) else best) (0, c 0)) rfl
    by_cases hc : ((List.range n).foldl
        (fun best i => if best.2 < c i then (i, c i) else best) (0, c 0)).2 < c n
    · rw [if_pos hc] at hp
      subst hp
      refine ⟨Or.inl (by omega), rfl, ?_, ?_⟩
      · intro j hj
        show c j ≤ c n
        rcases Nat.lt_or_ge j n with h | h
        · have := h3 j h
          omega
        · have hjn : j = n := by omega
          subst hjn
          exact le_refl _
      · intro j hj hcj
        show n ≤ j
        have hcj2 : c j = c n := hcj
        rcases Nat.lt_or_ge j n with h | h
        · have := h3 j h
          omega
        · omega
    · rw [if_neg hc] at hp
      subst hp
      refine ⟨by omega, h2, ?_, ?_⟩
      · intro j hj
        rcases Nat.lt_or_ge j n with h | h
        · exact h3 j h
        · have hjn : j = n := by omega
          subst hjn
          omega
      · intro j hj hcj
        rcases Nat.lt_or_ge j n with h | h
        · exact h4 j h hcj
        · have hjn : j = n := by omega
          subst hjn
          omega

/-- C8: computeWinner performs a linear scan over the 25 counters and
returns the (index, value) pair of the maximum counter with ties broken by
the lowest index: the returned value is the counter at the returned index,
no counter exceeds it, and any index attaining it is at least the returned
index. -/
theorem claim_C8 (bank : Nat) (hbank : bank < 2 ^ 254) :
    ∃ i v, computeWinner bank = some (i, v) ∧ i < 25 ∧
      getChainLength bank i = some v ∧
      (∀ j, j < 25 → ∀ w, getChainLength bank j = some w → w ≤ v) ∧
      (∀ j, j < 25 → getChainLength bank j = some v → i ≤ j) := by
  set F := (List.range 25).foldl (fun best i =>
      if best.2 < bank / 2 ^ (i * 10) % 1024
      then (i, bank / 2 ^ (i * 10) % 1024) else best)
    (0, bank / 2 ^ (0 * 10) % 1024) with hF
  obtain ⟨h1, h2, h3, h4⟩ := findMax_fold (fun i => bank / 2 ^ (i * 10) % 1024) 25 F hF.symm
  have hi25 : F.1 < 25 := by omega
  refine ⟨F.1, F.2, ?_, hi25, ?_, ?_, ?_⟩
  · unfold computeWinner findLongestChain
    rw [if_pos hbank, ← hF]
  · rw [getChainLength_eq bank F.1 hbank hi25]
    exact congrArg some h2.symm
  · intro j hj w hw
    rw [getChainLength_eq bank j hbank hj] at hw
    have hwv : bank / 2 ^ (j * 10) % 1024 = w := Option.some.inj hw
    have := h3 j hj
    omega
  · intro j hj hv
    rw [getChainLength_eq bank j hbank hj] at hv
    exact h4 j hj (Option.some.inj hv)

/-- Witness for C8 at the all-zero bank. -/
theorem claim_C8_witness :
    ∃ i v, computeWinner 0 = some (i, v) ∧ i < 25 ∧
      getChainLength 0 i = some v ∧
      (∀ j, j < 25 → ∀ w, getChainLength 0 j = some w → w ≤ v) ∧
      (∀ j, j < 25 → getChainLength 0 j = some v → i ≤ j) :=
  claim_C8 0 (by positivity)

/-! Message padding edge behavior -/

/-- Big-endian byte extraction always yields exactly n bytes. -/
theorem beExtract_length (n x : Nat) : (beExtract n x).length = n := by
  induction n generalizing x with
  | zero => rfl
  | succ n ih => simp [beExtract, ih]

/-- padSHA256Message fails when the bit length does not fit the 64-bit
big-endian trailer (the writeBigUInt64BE range check). -/
theorem padSHA256Message_none (data : List Nat) (h : ¬ data.length * 8 < 2 ^ 64) :
    padSHA256Message data = none := by
  simp only [padSHA256Message]
  rw [if_neg h]

/-- C10 counterexample: an input of 2^61 bytes has bit length 2^64, which
does not fit the 64-bit trailer, so padSHA256Message fails instead of
returning a buffer - the claim as stated over every byte sequence is false. -/
theorem claim_C10_counterexample : padSHA256Message (List.replicate (2 ^ 61) 0) = none :=
  padSHA256Message_none _ (by rw [List.length_replicate]; norm_num)

/-- C10 amended: for every input whose bit length fits the 64-bit trailer
(length below 2^61 bytes), padSHA256Message returns the original bytes, a
single 0x80 byte, zero padding, and the 8 big-endian bytes of 8 times the
length, with total length ceil((L+9)/64)*64; the empty input yields exactly
one 64-byte block, a 55-byte input still fits one block, and a 56-byte input
(no room for the 9 trailer bytes) yields an extra block. -/
theorem claim_C10_amended :
    (∀ data : List Nat, data.length * 8 < 2 ^ 64 →
      padSHA256Message data = some (data ++ [0x80] ++
        List.replicate (((data.length + 9 + 63) / 64) * 64 - data.length - 9) 0 ++
        beExtract 8 (data.length * 8)) ∧
      ∀ p, padSHA256Message data = some p →
        p.length = ((data.length + 9 + 63) / 64) * 64) ∧
    (padSHA256Message []).map List.length = some 64 ∧
    (padSHA256Message (List.replicate 55 0)).map List.length = some 64 ∧
    (padSHA256Message (List.replicate 56 0)).map List.length = some 128 := by
  refine ⟨?_, by decide, by decide, by decide⟩
  intro data h
  have hpad : padSHA256Message data = some (data ++ [0x80] ++
      List.replicate (((data.length + 9 + 63) / 64) * 64 - data.length - 9) 0 ++
      beExtract 8 (data.length * 8)) := by
    simp only [padSHA256Message]
    rw [if_pos h, beExtract_eq_map]
  refine ⟨hpad, ?_⟩
  intro p hp
  rw [hpad] at hp
  have hp2 := Option.some.inj hp
  rw [← hp2]
  simp only [List.length_append, List.length_replicate, List.length_cons,
    List.length_singleton, List.length_nil, beExtract_length]
  omega

/-- Witness for the amended C10 at the 3-byte input [1, 2, 3]. -/
theorem claim_C10_amended_witness :
    padSHA256Message [1, 2, 3] = some (([1, 2, 3] : List Nat) ++ [0x80] ++
      List.replicate (((([1, 2, 3] : List Nat).length + 9 + 63) / 64) * 64 -
        ([1, 2, 3] : List Nat).length - 9) 0 ++
      beExtract 8 (([1, 2, 3] : List Nat).length * 8)) ∧
    ∀ p, padSHA256Message [1, 2, 3] = some p →
      p.length = ((([1, 2, 3] : List Nat).length + 9 + 63) / 64) * 64 :=
  claim_C10_amended.1 [1, 2, 3] (by decide)
